import Mathlib

/-!
Formal model of `markov_model.py`.

The Python module defines a class `MarkovModel` holding an order `k` and a
dict-of-dicts frequency table `_st` mapping each observed k-gram to a dict
from successor character to occurrence count.  Python dicts preserve
insertion order, so both levels are modelled as association lists in
insertion order.  Strings are modelled as `List Char`; fallible Python
operations (raised exceptions) are modelled with `Except Err`.
-/

/-- Inner frequency map: successor character to occurrence count, in Python
dict insertion order. -/
abbrev InnerMap := List (Char × Nat)

/-- Outer frequency table: k-gram to inner map, in insertion order. -/
abbrev Table := List (List Char × InnerMap)

/-- Association-list lookup: Python `d[key]` (`some` iff `key in d`). -/
def alookup {α β : Type} [DecidableEq α] : List (α × β) → α → Option β
  | [], _ => none
  | (a, b) :: r, x => if a = x then some b else alookup r x

/-- `bump inner c` is Python `if c in d: d[c] += 1 else: d[c] = 1`
(a new key is appended at the end, per dict insertion order). -/
def bump : InnerMap → Char → InnerMap
  | [], c => [(c, 1)]
  | (a, n) :: r, c => if a = c then (a, n + 1) :: r else (a, n) :: bump r c

/-- Body of the construction loop of `MarkovModel.__init__`: increment
`st[g][c]`, creating `st[g] = {c: 1}` (appended at the end) when `g` is
absent. -/
def outerUpdate : Table → List Char → Char → Table
  | [], g, c => [(g, [(c, 1)])]
  | (a, inner) :: r, g, c =>
      if a = g then (a, bump inner c) :: r else (a, inner) :: outerUpdate r g c

/-- The k-window of `newtxt` starting at `i`: Python `newtxt[count:k+count]`. -/
def windowAt (newtxt : List Char) (k i : Nat) : List Char := (newtxt.drop i).take k

/-- The table after the first `n` iterations of the `__init__` loop
(iteration `count` reads window `newtxt[count:k+count]` and successor
`newtxt[k+count]`). -/
def buildTable (newtxt : List Char) (k : Nat) : Nat → Table
  | 0 => []
  | n + 1 => outerUpdate (buildTable newtxt k n) (windowAt newtxt k n) (newtxt.getD (n + k) ' ')

structure MarkovModel where
  k : Nat
  st : Table
deriving DecidableEq

/-- `MarkovModel.__init__`: `newtxt = text + text[:k]`, then one counting
iteration for each `count in range(0, len(newtxt) - k)`. -/
def MarkovModel.init (text : List Char) (k : Nat) : MarkovModel :=
  ⟨k, buildTable (text ++ text.take k) k ((text ++ text.take k).length - k)⟩

/-- Failure kinds of the Python code: explicit `ValueError`s raised by the
accessors (`invalidKgramLength`, `unknownKgram`) and the implicit exceptions
Python operations can raise (`keyError` for `d[missing]`, `indexError` for
out-of-range indexing, `zeroDivision` for `x / 0`, `valueError` for
`max([])`). -/
inductive Err
  | invalidKgramLength
  | unknownKgram
  | keyError
  | indexError
  | zeroDivision
  | valueError
deriving DecidableEq

deriving instance DecidableEq for Except

/-- Construction with the only fallible operation of `__init__` — the
character access `newtxt[k+count]` — modelled as a fallible Python index.
The constructor performs no validation of its own. -/
def buildTableE (newtxt : List Char) (k : Nat) : Nat → Except Err Table
  | 0 => .ok []
  | n + 1 => do
      let st ← buildTableE newtxt k n
      match newtxt.get? (n + k) with
      | some c => .ok (outerUpdate st (windowAt newtxt k n) c)
      | none => .error .indexError

/-- `MarkovModel(text, k)` as an operation that may in principle fail. -/
def construct (text : List Char) (k : Nat) : Except Err MarkovModel := do
  let st ← buildTableE (text ++ text.take k) k ((text ++ text.take k).length - k)
  .ok ⟨k, st⟩

/-- Sum of the counts of an inner map: Python `sum(d.values())`. -/
def innerSum (inner : InnerMap) : Nat := (inner.map Prod.snd).sum

/-- `MarkovModel.kgram_freq`: raises unless `len(kgram) == k`; returns the
sum of `_st[kgram]`'s values, or 0 when `kgram` is unseen. -/
def kgram_freq (m : MarkovModel) (g : List Char) : Except Err Nat :=
  if m.k ≠ g.length then .error .invalidKgramLength
  else
    match alookup m.st g with
    | some inner => .ok (innerSum inner)
    | none => .ok 0

/-- `MarkovModel.char_freq` on a Python string argument `c` (Python
characters are one-character strings): raises unless `len(kgram) == k`;
returns `_st[kgram][c]`, or 0 when `kgram` or `c` is unseen. -/
def charFreqStr (m : MarkovModel) (g : List Char) (c : List Char) : Except Err Nat :=
  if m.k ≠ g.length then .error .invalidKgramLength
  else
    match alookup m.st g with
    | none => .ok 0
    | some inner =>
        match c with
        | [ch] => .ok ((alookup inner ch).getD 0)
        | _ => .ok 0

/-- `MarkovModel.char_freq` applied to a single character. -/
def char_freq (m : MarkovModel) (g : List Char) (c : Char) : Except Err Nat :=
  charFreqStr m g [c]

/-- `MarkovModel.rand`: after validating the k-gram it computes the
frequency-weighted probability vector `char_num`, draws from it with
`stdrandom.discrete` — and then discards that draw and returns
`random.choice(hold)`, a uniform pick among the distinct successor
characters `hold = list(_st[kgram].keys())`.  The uniform draw of
`random.choice` is injected as the index `j` (taken modulo `len(hold)`).
With zero successors Python raises `IndexError` at `hold[0]`; with a zero
total count it raises `ZeroDivisionError` computing `char_num`. -/
def rand (m : MarkovModel) (g : List Char) (j : Nat) : Except Err Char :=
  if m.k ≠ g.length then .error .invalidKgramLength
  else
    match alookup m.st g with
    | none => .error .unknownKgram
    | some inner =>
        let hold := inner.map Prod.fst
        if hold.length = 0 then .error .indexError
        else if innerSum inner = 0 then .error .zeroDivision
        else .ok (hold.getD (j % hold.length) ' ')

/-- The distinct successor characters of `g`: Python `list(_st[g].keys())`. -/
def successorKeys (m : MarkovModel) (g : List Char) : List Char :=
  match alookup m.st g with
  | some inner => inner.map Prod.fst
  | none => []

/-- Probability that `rand m g` returns `c` when the injected index is
uniform over `[0, len(hold))`: the fraction of draws on which the code
returns `c`. -/
def randUniformProb (m : MarkovModel) (g : List Char) (c : Char) : ℚ :=
  (((List.range (successorKeys m g).length).filter
      (fun j => decide (rand m g j = Except.ok c))).length : ℚ) /
    ((successorKeys m g).length : ℚ)

/-- Raw k-gram frequency value (no length validation), used to state the
specified sampling distribution. -/
def kfreqVal (m : MarkovModel) (g : List Char) : Nat :=
  match alookup m.st g with
  | some inner => innerSum inner
  | none => 0

/-- Raw successor-count value (no length validation). -/
def charVal (m : MarkovModel) (g : List Char) (c : Char) : Nat :=
  match alookup m.st g with
  | some inner => (alookup inner c).getD 0
  | none => 0

/-- The sampling distribution the specification prescribes for `rand`:
each observed successor `c` of `g` with probability
`char_freq(g, c) / kgram_freq(g)`.  (Spec-side definition, for comparison
with the implemented sampler.) -/
def specSamplingProb (m : MarkovModel) (g : List Char) (c : Char) : ℚ :=
  (charVal m g c : ℚ) / (kfreqVal m g : ℚ)

/-- One step of `MarkovModel.gen` unrolled: `genAux m rs i steps newtxt`
runs the remaining `steps` iterations of the loop
`for i in range(T-k): newtxt += self.rand(newtxt[i:k+i])`, with `rs i` the
injected random index consumed by iteration `i`. -/
def genAux (m : MarkovModel) (rs : Nat → Nat) : Nat → Nat → List Char → Except Err (List Char)
  | _, 0, newtxt => .ok newtxt
  | i, steps + 1, newtxt => do
      let c ← rand m ((newtxt.drop i).take m.k) (rs i)
      genAux m rs (i + 1) steps (newtxt ++ [c])

/-- `MarkovModel.gen`: starting from `newtxt = kgram`, append `T - k`
sampled characters. -/
def gen (m : MarkovModel) (g : List Char) (T : Nat) (rs : Nat → Nat) : Except Err (List Char) :=
  genAux m rs 0 (T - m.k) g

/-- Python slice `s[a:b]` (step 1), with negative indices counted from the
end and out-of-range bounds clamped. -/
def pySlice (s : List Char) (a b : Int) : List Char :=
  let n : Int := s.length
  let lo : Int := if a < 0 then max (n + a) 0 else min a n
  let hi : Int := if b < 0 then max (n + b) 0 else min b n
  (s.drop lo.toNat).take (hi - lo).toNat

/-- Python `s.replace(old, new, 1)` on a list of characters: replace the
first occurrence of `old`. -/
def replaceFirst : List Char → Char → Char → List Char
  | [], _, _ => []
  | x :: xs, old, new => if x = old then new :: xs else x :: replaceFirst xs old new

/-- The inner likelihood loop of `replace_unknown` for one candidate:
`for b in range(k+1)`, with `sub = ntxt[b:b-k-1]` and the following
character `ntxt[k+b:k+b+1]`; a sub-window absent from the table sets the
likelihood to 0 and breaks, a present sub-window multiplies the accumulator
by `char_freq(sub, next) / kgram_freq(sub)` (raising `ZeroDivisionError`
when `kgram_freq(sub) == 0`). -/
def candidateProb (m : MarkovModel) (ntxt : List Char) : Nat → Nat → ℚ → Except Err ℚ
  | _, 0, p => .ok p
  | b, steps + 1, p =>
      match alookup m.st (pySlice ntxt (b : Int) ((b : Int) - m.k - 1)) with
      | none => .ok 0
      | some _ => do
          let cal1 ← charFreqStr m (pySlice ntxt (b : Int) ((b : Int) - m.k - 1))
              (pySlice ntxt ((m.k : Int) + b) ((m.k : Int) + b + 1))
          let cal2 ← kgram_freq m (pySlice ntxt (b : Int) ((b : Int) - m.k - 1))
          if cal2 = 0 then .error .zeroDivision
          else candidateProb m ntxt (b + 1) steps (p * ((cal1 : ℚ) / (cal2 : ℚ)))

/-- The candidate loop of `replace_unknown`: for each candidate in
`keyhold`, substitute it for the marker in `context` and run the likelihood
loop, collecting the list `prob`. -/
def computeProbs (m : MarkovModel) (context : List Char) : List Char → Except Err (List ℚ)
  | [] => .ok []
  | c :: cs => do
      let p ← candidateProb m (replaceFirst context '~' c) 0 (m.k + 1) 1
      let rest ← computeProbs m context cs
      .ok (p :: rest)

/-- Python `max(l)` on rationals (`max([])` raises, handled at call site). -/
def listMax : List ℚ → ℚ
  | [] => 0
  | x :: xs => xs.foldl max x

/-- Python `l.index(x)`: index of the first occurrence. -/
def idxOfQ : List ℚ → ℚ → Nat
  | [], _ => 0
  | x :: xs, y => if x = y then 0 else idxOfQ xs y + 1

/-- `argmax(a) = a.index(max(a))` from `replace_unknown`. -/
def argmax (l : List ℚ) : Nat := idxOfQ l (listMax l)

/-- One iteration of the `replace_unknown` scan at position `i`: when the
character there is the marker `~`, build `kgram_b = corrupted[i-k:i]` and
`kgram_a = corrupted[i+1:i+k+1]`, look up the candidates
(`_st[kgram_b]` raising `KeyError` when absent), score them, and replace
the first `~` of the working string by the argmax candidate (`max([])`
raising `ValueError` on an empty candidate list). -/
def replStep (m : MarkovModel) (s : List Char) (i : Nat) : Except Err (List Char) :=
  match s.get? i with
  | none => .error .indexError
  | some ch =>
      if ch = '~' then
        match alookup m.st (pySlice s ((i : Int) - m.k) (i : Int)) with
        | none => .error .keyError
        | some inner => do
            let keyhold := inner.map Prod.fst
            let prob ← computeProbs m
                (pySlice s ((i : Int) - m.k) (i : Int) ++
                  '~' :: pySlice s ((i : Int) + 1) ((i : Int) + m.k + 1)) keyhold
            match prob with
            | [] => .error .valueError
            | _ :: _ => .ok (replaceFirst s '~' (keyhold.getD (argmax prob) ' '))
      else .ok s

/-- The scan `for i in range(size)` of `replace_unknown`, threading the
working string. -/
def replaceAux (m : MarkovModel) : List Nat → List Char → Except Err (List Char)
  | [], s => .ok s
  | i :: is, s => do
      let s' ← replStep m s i
      replaceAux m is s'

/-- `MarkovModel.replace_unknown`. -/
def replace_unknown (m : MarkovModel) (corrupted : List Char) : Except Err (List Char) :=
  replaceAux m (List.range corrupted.length) corrupted

/-- The length-k sub-window of `W` starting at `b`. -/
def subWindow (W : List Char) (k b : Nat) : List Char := (W.drop b).take k

/-- Conditional probability contributed by the sub-window of `W` at `b`. -/
def ratio (m : MarkovModel) (W : List Char) (b : Nat) : ℚ :=
  (charVal m (subWindow W m.k b) (W.getD (b + m.k) ' ') : ℚ) /
    (kfreqVal m (subWindow W m.k b) : ℚ)

/-- The joint likelihood of a candidate window `W = kgram_b + c + kgram_a`
as the specification defines it: the product over the `k+1` overlapping
length-k sub-windows of `W` of `char_freq(sub, next) / kgram_freq(sub)`,
defined as exactly 0 when any sub-window is absent from the table.
(Spec-side definition, for comparison with the implemented scoring loop.) -/
def jointLikelihood (m : MarkovModel) (W : List Char) : ℚ :=
  if ((List.range (m.k + 1)).all fun b => (alookup m.st (subWindow W m.k b)).isSome) = true then
    ((List.range (m.k + 1)).map (ratio m W)).prod
  else 0

/-- Total number of counted window/successor pairs in a table. -/
def tableTotal (st : Table) : Nat := (st.map fun p => innerSum p.2).sum

/-- Well-formedness of a frequency table of order `k`: every key has length
`k`, every inner map is non-empty, and every stored count is positive. -/
abbrev WellFormed (k : Nat) (st : Table) : Prop :=
  ∀ p ∈ st, p.1.length = k ∧ p.2 ≠ [] ∧ ∀ q ∈ p.2, 0 < q.2

/-! ### Helper lemmas -/

lemma buildTableE_eq (newtxt : List Char) (k : Nat) :
    ∀ n, n + k ≤ newtxt.length → buildTableE newtxt k n = .ok (buildTable newtxt k n) := by
  intro n
  induction n with
  | zero => intro _; rfl
  | succ n ih =>
      intro h
      have h1 : n + k < newtxt.length := by omega
      have h2 : newtxt.get? (n + k) = some (newtxt.getD (n + k) ' ') := by
        simp [List.getElem?_eq_getElem h1]
      rw [buildTableE, ih (by omega), h2, buildTable]
      rfl

lemma construct_eq_init (text : List Char) (k : Nat) :
    construct text k = .ok (MarkovModel.init text k) := by
  unfold construct MarkovModel.init
  by_cases hk : k ≤ (text ++ text.take k).length
  · rw [buildTableE_eq _ _ _ (by omega)]
    rfl
  · have h0 : (text ++ text.take k).length - k = 0 := by omega
    rw [h0]
    rfl

lemma rand_singleton (m : MarkovModel) (g : List Char) (inner : InnerMap) (c : Char)
    (h : alookup m.st g = some inner) (hlen : m.k = g.length)
    (hone : inner.map Prod.fst = [c]) (hsum : innerSum inner ≠ 0) (j : Nat) :
    rand m g j = .ok c := by
  unfold rand
  rw [if_neg (by omega), h]
  simp only [hone, hsum]
  simp [Nat.mod_one]

lemma genAux_step (m : MarkovModel) (rs : Nat → Nat) (i steps : Nat) (newtxt : List Char)
    (c : Char) (h : rand m ((newtxt.drop i).take m.k) (rs i) = .ok c) :
    genAux m rs i (steps + 1) newtxt = genAux m rs (i + 1) steps (newtxt ++ [c]) := by
  rw [genAux, h]
  rfl

lemma innerSum_cons (a : Char) (n : Nat) (r : InnerMap) :
    innerSum ((a, n) :: r) = n + innerSum r := by
  simp [innerSum]

lemma innerSum_bump (inner : InnerMap) (c : Char) :
    innerSum (bump inner c) = innerSum inner + 1 := by
  induction inner with
  | nil => rfl
  | cons q r ih =>
      obtain ⟨a, n⟩ := q
      by_cases h : a = c
      · simp [bump, h, innerSum_cons]
        omega
      · simp [bump, h, innerSum_cons, ih]
        omega

lemma tableTotal_cons (g : List Char) (inner : InnerMap) (r : Table) :
    tableTotal ((g, inner) :: r) = innerSum inner + tableTotal r := by
  simp [tableTotal]

lemma tableTotal_outerUpdate (st : Table) (g : List Char) (c : Char) :
    tableTotal (outerUpdate st g c) = tableTotal st + 1 := by
  induction st with
  | nil => simp [outerUpdate, tableTotal, innerSum]
  | cons p r ih =>
      obtain ⟨a, inner⟩ := p
      by_cases h : a = g
      · simp [outerUpdate, h, tableTotal_cons, innerSum_bump]
        omega
      · simp [outerUpdate, h, tableTotal_cons, ih]
        omega

lemma tableTotal_buildTable (newtxt : List Char) (k : Nat) :
    ∀ n, tableTotal (buildTable newtxt k n) = n := by
  intro n
  induction n with
  | zero => rfl
  | succ n ih => rw [buildTable, tableTotal_outerUpdate, ih]

lemma alookup_eq_none_iff {β : Type} (st : List (List Char × β)) (x : List Char) :
    alookup st x = none ↔ x ∉ st.map Prod.fst := by
  induction st with
  | nil => simp [alookup]
  | cons p r ih =>
      obtain ⟨a, b⟩ := p
      by_cases h : a = x
      · subst h
        rw [alookup, if_pos rfl]
        apply iff_of_false
        · exact fun hc => Option.noConfusion hc
        · exact fun hc => hc (by rw [List.map_cons]; exact List.mem_cons_self _ _)
      · rw [alookup, if_neg h]
        simp only [List.map_cons, List.mem_cons, not_or]
        rw [ih]
        constructor
        · intro hx
          exact ⟨fun hxa => h hxa.symm, hx⟩
        · intro hx
          exact hx.2

lemma alookup_mem {β : Type} (st : List (List Char × β)) (g : List Char) (v : β)
    (h : alookup st g = some v) : (g, v) ∈ st := by
  induction st with
  | nil => simp [alookup] at h
  | cons p r ih =>
      obtain ⟨a, b⟩ := p
      by_cases ha : a = g
      · rw [alookup, if_pos ha] at h
        subst ha
        simp at h
        simp [h]
      · rw [alookup, if_neg ha] at h
        exact List.mem_cons_of_mem _ (ih h)

lemma map_fst_outerUpdate (st : Table) (g : List Char) (c : Char) :
    (outerUpdate st g c).map Prod.fst =
      if (alookup st g).isSome then st.map Prod.fst else st.map Prod.fst ++ [g] := by
  induction st with
  | nil => simp [outerUpdate, alookup]
  | cons p r ih =>
      obtain ⟨a, inner⟩ := p
      by_cases h : a = g
      · simp [outerUpdate, h, alookup]
      · simp only [outerUpdate, if_neg h, List.map_cons, alookup, ih]
        by_cases hs : (alookup r g).isSome <;> simp [hs, h]

lemma nodup_keys_outerUpdate (st : Table) (g : List Char) (c : Char)
    (h : (st.map Prod.fst).Nodup) : ((outerUpdate st g c).map Prod.fst).Nodup := by
  rw [map_fst_outerUpdate]
  by_cases hs : (alookup st g).isSome
  · simpa [hs]
  · have hno : alookup st g = none := by
      cases halo : alookup st g
      · rfl
      · simp [halo] at hs
    have hnotin : g ∉ st.map Prod.fst := (alookup_eq_none_iff st g).mp hno
    simp [hs, List.nodup_append, h, hnotin]

lemma nodup_keys_buildTable (newtxt : List Char) (k : Nat) :
    ∀ n, ((buildTable newtxt k n).map Prod.fst).Nodup := by
  intro n
  induction n with
  | zero => simp [buildTable]
  | succ n ih => exact nodup_keys_outerUpdate _ _ _ ih

lemma alookup_of_mem_nodup {β : Type} (st : List (List Char × β))
    (h : (st.map Prod.fst).Nodup) :
    ∀ p ∈ st, alookup st p.1 = some p.2 := by
  induction st with
  | nil => simp
  | cons q r ih =>
      obtain ⟨a, b⟩ := q
      intro p hp
      rcases List.mem_cons.mp hp with hep | hmem
      · subst hep
        simp [alookup]
      · have hne : a ≠ p.1 := by
          intro hcontra
          have : p.1 ∈ r.map Prod.fst := List.mem_map_of_mem Prod.fst hmem
          rw [← hcontra] at this
          exact (List.nodup_cons.mp h).1 this
        rw [alookup, if_neg hne]
        exact ih (List.nodup_cons.mp h).2 p hmem

lemma bump_ne_nil (inner : InnerMap) (c : Char) : bump inner c ≠ [] := by
  cases inner with
  | nil => simp [bump]
  | cons q r =>
      obtain ⟨a, n⟩ := q
      by_cases h : a = c <;> simp [bump, h]

lemma bump_pos (inner : InnerMap) (c : Char) (h : ∀ q ∈ inner, 0 < q.2) :
    ∀ q ∈ bump inner c, 0 < q.2 := by
  induction inner with
  | nil =>
      intro q hq
      simp [bump] at hq
      simp [hq]
  | cons p r ih =>
      obtain ⟨a, n⟩ := p
      intro q hq
      by_cases ha : a = c
      · rw [bump, if_pos ha] at hq
        rcases List.mem_cons.mp hq with hep | hmem
        · subst hep
          omega
        · exact h q (List.mem_cons_of_mem _ hmem)
      · rw [bump, if_neg ha] at hq
        rcases List.mem_cons.mp hq with hep | hmem
        · subst hep
          exact h (a, n) (by simp)
        · exact ih (fun q hq => h q (List.mem_cons_of_mem _ hq)) q hmem

lemma wf_outerUpdate (k : Nat) (st : Table) (g : List Char) (c : Char)
    (hg : g.length = k) (h : WellFormed k st) : WellFormed k (outerUpdate st g c) := by
  induction st with
  | nil =>
      intro p hp
      simp [outerUpdate] at hp
      subst hp
      exact ⟨hg, by simp, by simp⟩
  | cons q r ih =>
      obtain ⟨a, inner⟩ := q
      intro p hp
      by_cases ha : a = g
      · rw [outerUpdate, if_pos ha] at hp
        rcases List.mem_cons.mp hp with hep | hmem
        · subst hep
          have hq := h (a, inner) (by simp)
          exact ⟨hq.1, bump_ne_nil _ _, bump_pos _ _ hq.2.2⟩
        · exact h p (List.mem_cons_of_mem _ hmem)
      · rw [outerUpdate, if_neg ha] at hp
        rcases List.mem_cons.mp hp with hep | hmem
        · subst hep
          exact h (a, inner) (by simp)
        · exact ih (fun q hq => h q (List.mem_cons_of_mem _ hq)) p hmem

lemma windowAt_length (newtxt : List Char) (k i : Nat) (h : i + k ≤ newtxt.length) :
    (windowAt newtxt k i).length = k := by
  simp [windowAt]
  omega

lemma wf_buildTable (newtxt : List Char) (k : Nat) :
    ∀ n, n + k ≤ newtxt.length → WellFormed k (buildTable newtxt k n) := by
  intro n
  induction n with
  | zero => intro _ p hp; simp [buildTable] at hp
  | succ n ih =>
      intro h
      rw [buildTable]
      exact wf_outerUpdate _ _ _ _ (windowAt_length _ _ _ (by omega)) (ih (by omega))

lemma newtxt_length (text : List Char) (k : Nat) (hk : k ≤ text.length) :
    (text ++ text.take k).length = text.length + k := by
  simp
  omega

lemma init_wf (text : List Char) (k : Nat) (hk : k ≤ text.length) :
    WellFormed k (MarkovModel.init text k).st := by
  unfold MarkovModel.init
  apply wf_buildTable
  rw [newtxt_length text k hk]
  omega

lemma init_st (text : List Char) (k : Nat) (hk : k ≤ text.length) :
    (MarkovModel.init text k).st = buildTable (text ++ text.take k) k text.length := by
  unfold MarkovModel.init
  rw [newtxt_length text k hk]
  simp

lemma alookup_outerUpdate (st : Table) (g : List Char) (c : Char) (x : List Char) :
    alookup (outerUpdate st g c) x =
      if x = g then some (bump ((alookup st g).getD []) c) else alookup st x := by
  induction st with
  | nil =>
      by_cases h : x = g
      · subst h
        simp [outerUpdate, alookup, bump]
      · rw [if_neg h]
        simp only [outerUpdate, alookup]
        rw [if_neg (fun hc => h hc.symm)]
  | cons p r ih =>
      obtain ⟨a, inner⟩ := p
      by_cases ha : a = g
      · subst ha
        by_cases hx : x = a
        · subst hx
          simp [outerUpdate, alookup]
        · rw [if_neg hx]
          simp only [outerUpdate, if_pos rfl, alookup]
          rw [if_neg (fun hc => hx hc.symm), if_neg (fun hc => hx hc.symm)]
      · rw [outerUpdate, if_neg ha]
        by_cases hx : x = g
        · subst hx
          rw [if_pos rfl, alookup, if_neg ha, ih, if_pos rfl, alookup, if_neg ha]
        · rw [if_neg hx, alookup, alookup]
          by_cases hax : a = x
          · rw [if_pos hax, if_pos hax]
          · rw [if_neg hax, if_neg hax, ih, if_neg hx]

lemma succ_mem_bump (inner : InnerMap) (c c' : Char) :
    c' ∈ (bump inner c).map Prod.fst ↔ c' ∈ inner.map Prod.fst ∨ c' = c := by
  induction inner with
  | nil => simp [bump]
  | cons p r ih =>
      obtain ⟨a, n⟩ := p
      by_cases h : a = c
      · subst h
        simp [bump]
        tauto
      · rw [bump, if_neg h]
        simp [ih]
        tauto

lemma pair_mem_buildTable (newtxt : List Char) (k : Nat) :
    ∀ n g inner c, alookup (buildTable newtxt k n) g = some inner →
      c ∈ inner.map Prod.fst →
      ∃ i, i < n ∧ windowAt newtxt k i = g ∧ newtxt.getD (i + k) ' ' = c := by
  intro n
  induction n with
  | zero => intro g inner c h _; simp [buildTable, alookup] at h
  | succ n ih =>
      intro g inner c h hc
      rw [buildTable, alookup_outerUpdate] at h
      by_cases hg : g = windowAt newtxt k n
      · rw [if_pos hg] at h
        have hinner : inner = bump ((alookup (buildTable newtxt k n) (windowAt newtxt k n)).getD []) (newtxt.getD (n + k) ' ') := by
          injection h with h
          exact h.symm
        rw [hinner] at hc
        rcases (succ_mem_bump _ _ _).mp hc with hmem | hect
        · cases halo : alookup (buildTable newtxt k n) (windowAt newtxt k n) with
          | none => rw [halo] at hmem; simp at hmem
          | some inner0 =>
              rw [halo] at hmem
              obtain ⟨i, hi, hwi, hci⟩ := ih (windowAt newtxt k n) inner0 c halo hmem
              exact ⟨i, by omega, by rw [hwi, hg], hci⟩
        · exact ⟨n, by omega, hg.symm, hect.symm⟩
      · rw [if_neg hg] at h
        obtain ⟨i, hi, hwi, hci⟩ := ih g inner c h hc
        exact ⟨i, by omega, hwi, hci⟩

lemma key_mem_buildTable (newtxt : List Char) (k : Nat) :
    ∀ n i, i < n → (alookup (buildTable newtxt k n) (windowAt newtxt k i)).isSome := by
  intro n
  induction n with
  | zero => intro i h; omega
  | succ n ih =>
      intro i h
      rw [buildTable, alookup_outerUpdate]
      by_cases hw : windowAt newtxt k i = windowAt newtxt k n
      · rw [if_pos hw]
        rfl
      · rw [if_neg hw]
        have hi : i < n := by
          rcases Nat.lt_succ_iff_lt_or_eq.mp h with h1 | h2
          · exact h1
          · subst h2
            exact absurd rfl hw
        exact ih i hi

lemma window_shift (l : List Char) (k i : Nat) (hk : 1 ≤ k) (h : i + k < l.length) :
    (windowAt l k i).drop 1 ++ [l.getD (i + k) ' '] = windowAt l k (i + 1) := by
  cases k with
  | zero => omega
  | succ k0 =>
      have hi : i < l.length := by omega
      have h1 : windowAt l (k0 + 1) i = l[i] :: (l.drop (i + 1)).take k0 := by
        rw [windowAt, List.drop_eq_getElem_cons hi]
        rfl
      have h2 : (l.drop (i + 1))[k0]? = some (l.getD (i + k0 + 1) ' ') := by
        rw [List.getElem?_drop,
          show i + 1 + k0 = i + k0 + 1 from by omega,
          List.getElem?_eq_getElem (show i + k0 + 1 < l.length by omega),
          List.getD_eq_getElem?_getD,
          List.getElem?_eq_getElem (show i + k0 + 1 < l.length by omega)]
        rfl
      rw [h1]
      simp only [List.drop_succ_cons, List.drop_zero]
      rw [windowAt, List.take_succ, h2]
      rfl

lemma window_wraparound (text : List Char) (k : Nat) (hk : k ≤ text.length) :
    windowAt (text ++ text.take k) k text.length = windowAt (text ++ text.take k) k 0 := by
  rw [windowAt, windowAt, List.drop_left, List.drop_zero,
    List.take_append_of_le_length hk, List.take_take]
  simp

lemma init_closure (text : List Char) (k : Nat) (hk1 : 1 ≤ k) (hk : k ≤ text.length) :
    ∀ g inner c, alookup (MarkovModel.init text k).st g = some inner →
      c ∈ inner.map Prod.fst →
      (alookup (MarkovModel.init text k).st (g.drop 1 ++ [c])).isSome := by
  intro g inner c h hc
  rw [init_st text k hk] at h ⊢
  obtain ⟨i, hi, hwin, hch⟩ := pair_mem_buildTable _ _ _ g inner c h hc
  have hlen : i + k < (text ++ text.take k).length := by
    rw [newtxt_length text k hk]
    omega
  have hshift : g.drop 1 ++ [c] = windowAt (text ++ text.take k) k (i + 1) := by
    rw [← hwin, ← hch]
    exact window_shift _ _ _ hk1 hlen
  rw [hshift]
  by_cases hin : i + 1 < text.length
  · exact key_mem_buildTable _ _ _ _ hin
  · have hieq : i + 1 = text.length := by omega
    rw [hieq, window_wraparound text k hk]
    exact key_mem_buildTable _ _ _ 0 (by omega)

lemma innerSum_ne_zero (inner : InnerMap) (hne : inner ≠ []) (hpos : ∀ q ∈ inner, 0 < q.2) :
    innerSum inner ≠ 0 := by
  cases inner with
  | nil => exact absurd rfl hne
  | cons q r =>
      obtain ⟨a, n⟩ := q
      have := hpos (a, n) (by simp)
      rw [innerSum_cons]
      omega

lemma rand_ok (m : MarkovModel) (g : List Char) (inner : InnerMap)
    (h : alookup m.st g = some inner) (hlen : m.k = g.length)
    (hne : inner ≠ []) (hpos : ∀ q ∈ inner, 0 < q.2) (j : Nat) :
    rand m g j =
      .ok ((inner.map Prod.fst).getD (j % (inner.map Prod.fst).length) ' ') ∧
    (inner.map Prod.fst).getD (j % (inner.map Prod.fst).length) ' ' ∈ inner.map Prod.fst := by
  have hlen0 : (inner.map Prod.fst).length ≠ 0 := by
    simp only [List.length_map]
    intro hc
    exact hne (List.length_eq_zero.mp hc)
  have hmod : j % (inner.map Prod.fst).length < (inner.map Prod.fst).length :=
    Nat.mod_lt _ (by omega)
  constructor
  · unfold rand
    rw [if_neg (by omega), h]
    simp [hlen0, hne, innerSum_ne_zero inner hne hpos]
  · rw [List.getD_eq_getElem?_getD, List.getElem?_eq_getElem hmod]
    simp only [Option.getD_some]
    exact List.getElem_mem hmod

lemma trailing_shift (l : List Char) (c : Char) (k i : Nat) (hk : 1 ≤ k)
    (hlen : l.length = k + i) :
    ((l ++ [c]).drop (i + 1)).take k = ((l.drop i).take k).drop 1 ++ [c] := by
  have h1 : (l.drop i).take k = l.drop i :=
    List.take_of_length_le (by simp; omega)
  have h2 : ((l.drop i).take k).drop 1 = l.drop (i + 1) := by
    rw [h1, List.drop_drop]
  have h3 : (l ++ [c]).drop (i + 1) = l.drop (i + 1) ++ [c] := by
    rw [List.drop_append_of_le_length (by omega)]
  rw [h2, h3]
  exact List.take_of_length_le (by simp; omega)

lemma prefix_window (s t : List Char) (n a b : Nat) (h : s.take n = t) (hab : a + b ≤ n) :
    (s.drop a).take b = (t.drop a).take b := by
  rw [← h, List.drop_take, List.take_take]
  have : b ⊓ (n - a) = b := by omega
  rw [this]

lemma getD_from_take (s t : List Char) (c : Char) (n : Nat)
    (h : s.take (n + 1) = t ++ [c]) (ht : t.length = n) :
    s.getD n ' ' = c := by
  have h1 : s[n]? = (s.take (n + 1))[n]? := by
    rw [List.getElem?_take]
    simp
  rw [List.getD_eq_getElem?_getD, h1, h, ← ht, List.getElem?_append_right (by omega)]
  simp

lemma genAux_spec (m : MarkovModel) (rs : Nat → Nat)
    (hk1 : 1 ≤ m.k) (hwf : WellFormed m.k m.st)
    (hcl : ∀ g inner c, alookup m.st g = some inner → c ∈ inner.map Prod.fst →
      (alookup m.st (g.drop 1 ++ [c])).isSome) :
    ∀ steps i newtxt, newtxt.length = m.k + i →
      (alookup m.st ((newtxt.drop i).take m.k)).isSome →
      ∃ s, genAux m rs i steps newtxt = .ok s ∧ s.length = newtxt.length + steps ∧
        s.take newtxt.length = newtxt ∧
        ∀ j, i ≤ j → j < i + steps →
          rand m ((s.drop j).take m.k) (rs j) = .ok (s.getD (j + m.k) ' ') := by
  intro steps
  induction steps with
  | zero =>
      intro i newtxt _ _
      exact ⟨newtxt, rfl, by omega, List.take_length newtxt, fun j h1 h2 => by omega⟩
  | succ steps ih =>
      intro i newtxt hlen hsome
      obtain ⟨inner, halo⟩ := Option.isSome_iff_exists.mp hsome
      have hmem := hwf _ (alookup_mem _ _ _ halo)
      have hglen : ((newtxt.drop i).take m.k).length = m.k := hmem.1
      obtain ⟨hrand, hcmem⟩ := rand_ok m _ inner halo hglen.symm hmem.2.1 hmem.2.2 (rs i)
      set c := (inner.map Prod.fst).getD (rs i % (inner.map Prod.fst).length) ' ' with hc
      have hnewlen : (newtxt ++ [c]).length = m.k + (i + 1) := by simp; omega
      have hshift : ((newtxt ++ [c]).drop (i + 1)).take m.k =
          ((newtxt.drop i).take m.k).drop 1 ++ [c] :=
        trailing_shift newtxt c m.k i hk1 hlen
      have hsome2 : (alookup m.st (((newtxt ++ [c]).drop (i + 1)).take m.k)).isSome := by
        rw [hshift]
        exact hcl _ inner c halo hcmem
      obtain ⟨s, hgen, hslen, hstake, hsrand⟩ := ih (i + 1) (newtxt ++ [c]) hnewlen hsome2
      refine ⟨s, ?_, by simp at hslen; omega, ?_, ?_⟩
      · rw [genAux, hrand]
        exact hgen
      · have h1 : s.take (newtxt.length + 1) = newtxt ++ [c] := by
          have : (newtxt ++ [c]).length = newtxt.length + 1 := by simp
          rw [← this]
          exact hstake
        calc s.take newtxt.length
            = (s.take (newtxt.length + 1)).take newtxt.length := by
              rw [List.take_take]
              congr 1
              omega
          _ = (newtxt ++ [c]).take newtxt.length := by rw [h1]
          _ = newtxt := by
              rw [List.take_append_of_le_length (by omega), List.take_length]
      · intro j hj1 hj2
        rcases Nat.lt_or_ge j (i + 1) with hji | hji
        · have hjeq : j = i := by omega
          subst hjeq
          have h1 : s.take (newtxt.length + 1) = newtxt ++ [c] := by
            have : (newtxt ++ [c]).length = newtxt.length + 1 := by simp
            rw [← this]
            exact hstake
          have hwin : (s.drop j).take m.k = (newtxt.drop j).take m.k := by
            have h2 : s.take newtxt.length = newtxt := by
              calc s.take newtxt.length
                  = (s.take (newtxt.length + 1)).take newtxt.length := by
                    rw [List.take_take]
                    congr 1
                    omega
                _ = (newtxt ++ [c]).take newtxt.length := by rw [h1]
                _ = newtxt := by
                    rw [List.take_append_of_le_length (by omega), List.take_length]
            exact prefix_window s newtxt newtxt.length j m.k h2 (by omega)
          have hgd : s.getD (j + m.k) ' ' = c := by
            apply getD_from_take s newtxt c (j + m.k) _ (by omega)
            have : j + m.k + 1 = newtxt.length + 1 := by omega
            rw [this]
            exact h1
          rw [hwin, hgd]
          exact hrand
        · exact hsrand j hji (by omega)

lemma pySlice_eq (s : List Char) (a b : Int) (ha : 0 ≤ a) (hab : a ≤ b)
    (hb : b ≤ s.length) :
    pySlice s a b = (s.drop a.toNat).take (b - a).toNat := by
  simp only [pySlice]
  rw [if_neg (show ¬a < 0 by omega), if_neg (show ¬b < 0 by omega),
    min_eq_left (show a ≤ (s.length : Int) by omega),
    min_eq_left (show b ≤ (s.length : Int) by omega)]

lemma pySlice_negEnd (s : List Char) (a b : Int) (ha : 0 ≤ a) (hb : b < 0)
    (h2 : 0 ≤ (s.length : Int) + b) (h3 : a ≤ s.length) :
    pySlice s a b = (s.drop a.toNat).take ((s.length : Int) + b - a).toNat := by
  simp only [pySlice]
  rw [if_neg (show ¬a < 0 by omega), if_pos hb,
    min_eq_left (show a ≤ (s.length : Int) by omega),
    max_eq_left (show (0 : Int) ≤ (s.length : Int) + b by omega)]

lemma take_one_drop (l : List Char) (i : Nat) (h : i < l.length) :
    (l.drop i).take 1 = [l.getD i ' '] := by
  rw [List.drop_eq_getElem_cons h, List.getD_eq_getElem?_getD,
    List.getElem?_eq_getElem h]
  rfl

lemma pySlice_window (W : List Char) (k b : Nat) (hW : W.length = 2 * k + 1)
    (hb : b ≤ k) :
    pySlice W (b : Int) ((b : Int) - k - 1) = subWindow W k b := by
  rw [pySlice_negEnd W (b : Int) ((b : Int) - k - 1) (by omega) (by omega)
    (by omega) (by omega)]
  have h1 : ((b : Int)).toNat = b := by omega
  have h2 : ((W.length : Int) + ((b : Int) - k - 1) - b).toNat = k := by
    rw [hW]
    omega
  rw [h1, h2, subWindow]

lemma pySlice_next (W : List Char) (k b : Nat) (hW : W.length = 2 * k + 1)
    (hb : b ≤ k) :
    pySlice W ((k : Int) + b) ((k : Int) + b + 1) = [W.getD (b + k) ' '] := by
  rw [pySlice_eq W ((k : Int) + b) ((k : Int) + b + 1) (by omega) (by omega)
    (by rw [hW]; omega)]
  have h1 : ((k : Int) + b).toNat = b + k := by omega
  have h2 : ((k : Int) + b + 1 - ((k : Int) + b)).toNat = 1 := by omega
  rw [h1, h2]
  exact take_one_drop W (b + k) (by omega)

lemma pySlice_kb (s : List Char) (i k : Nat) (hk : k ≤ i) (hi : i ≤ s.length) :
    pySlice s ((i : Int) - k) (i : Int) = (s.drop (i - k)).take k := by
  rw [pySlice_eq s ((i : Int) - k) (i : Int) (by omega) (by omega) (by omega)]
  have h1 : ((i : Int) - k).toNat = i - k := by omega
  have h2 : ((i : Int) - ((i : Int) - k)).toNat = k := by omega
  rw [h1, h2]

lemma pySlice_ka (s : List Char) (i k : Nat) (hia : i + k + 1 ≤ s.length) :
    pySlice s ((i : Int) + 1) ((i : Int) + k + 1) = (s.drop (i + 1)).take k := by
  rw [pySlice_eq s ((i : Int) + 1) ((i : Int) + k + 1) (by omega) (by omega)
    (by omega)]
  have h1 : ((i : Int) + 1).toNat = i + 1 := by omega
  have h2 : ((i : Int) + k + 1 - ((i : Int) + 1)).toNat = k := by omega
  rw [h1, h2]

lemma subWindow_length (W : List Char) (k b : Nat) (hW : W.length = 2 * k + 1)
    (hb : b ≤ k) : (subWindow W k b).length = k := by
  simp [subWindow]
  omega

lemma charFreqStr_ok (m : MarkovModel) (g : List Char) (ch : Char)
    (hlen : g.length = m.k) : charFreqStr m g [ch] = .ok (charVal m g ch) := by
  unfold charFreqStr charVal
  rw [if_neg (by omega)]
  cases halo : alookup m.st g <;> simp [halo]

lemma kgram_freq_ok (m : MarkovModel) (g : List Char) (hlen : g.length = m.k) :
    kgram_freq m g = .ok (kfreqVal m g) := by
  unfold kgram_freq kfreqVal
  rw [if_neg (by omega)]
  cases halo : alookup m.st g <;> simp [halo]

lemma wf_to_lookup_facts (m : MarkovModel) (hwf : WellFormed m.k m.st) :
    ∀ g inner, alookup m.st g = some inner → g.length = m.k ∧ innerSum inner ≠ 0 := by
  intro g inner h
  have hm := hwf _ (alookup_mem _ _ _ h)
  exact ⟨hm.1, innerSum_ne_zero _ hm.2.1 hm.2.2⟩

lemma candidateProb_spec (m : MarkovModel) (W : List Char)
    (hwfa : ∀ g inner, alookup m.st g = some inner → g.length = m.k ∧ innerSum inner ≠ 0)
    (hW : W.length = 2 * m.k + 1) :
    ∀ steps b p, b + steps ≤ m.k + 1 →
      candidateProb m W b steps p =
        .ok (if ((List.range steps).all
                  fun j => (alookup m.st (subWindow W m.k (b + j))).isSome) = true
             then p * ((List.range steps).map fun j => ratio m W (b + j)).prod
             else 0) := by
  intro steps
  induction steps with
  | zero =>
      intro b p _
      simp [candidateProb]
  | succ steps ih =>
      intro b p hbs
      have hb : b ≤ m.k := by omega
      rw [candidateProb, pySlice_window W m.k b hW hb]
      have hsplit : ∀ P : Nat → Bool,
          (List.range (steps + 1)).all P = (P 0 && (List.range steps).all fun j => P (j + 1)) := by
        intro P
        rw [List.range_succ_eq_map]
        simp [List.all_map]
        rfl
      cases halo : alookup m.st (subWindow W m.k b) with
      | none =>
          rw [hsplit]
          simp [halo]
      | some inner =>
          obtain ⟨hsublen, hsum⟩ := hwfa _ _ halo
          rw [pySlice_next W m.k b hW hb, charFreqStr_ok m _ _ hsublen]
          have hfv : kfreqVal m (subWindow W m.k b) = innerSum inner := by
            unfold kfreqVal
            rw [halo]
          rw [kgram_freq_ok m _ hsublen]
          show (if kfreqVal m (subWindow W m.k b) = 0 then Except.error Err.zeroDivision
            else candidateProb m W (b + 1) steps
              (p * ((charVal m (subWindow W m.k b) (W.getD (b + m.k) ' ') : ℚ) /
                (kfreqVal m (subWindow W m.k b) : ℚ)))) = _
          rw [if_neg (by rw [hfv]; exact hsum)]
          rw [ih (b + 1) _ (by omega)]
          congr 1
          have hcond : ((List.range steps).all fun j =>
              (alookup m.st (subWindow W m.k (b + 1 + j))).isSome) =
              ((List.range steps).all fun j =>
              (alookup m.st (subWindow W m.k (b + (j + 1)))).isSome) := by
            congr 1
            funext j
            rw [show b + 1 + j = b + (j + 1) from by omega]
          have hprodf : ((List.range steps).map fun j => ratio m W (b + 1 + j)) =
              ((List.range steps).map fun j => ratio m W (b + (j + 1))) := by
            congr 1
            funext j
            rw [show b + 1 + j = b + (j + 1) from by omega]
          rw [hcond, hprodf, hsplit]
          have hP0 : (alookup m.st (subWindow W m.k (b + 0))).isSome = true := by
            rw [Nat.add_zero, halo]
            rfl
          rw [hP0, Bool.true_and]
          by_cases hall : ((List.range steps).all fun j =>
              (alookup m.st (subWindow W m.k (b + (j + 1)))).isSome) = true
          · rw [if_pos hall, if_pos hall]
            rw [List.range_succ_eq_map]
            simp only [List.map_cons, List.prod_cons, List.map_map]
            rw [show ratio m W (b + 0) = ratio m W b from by rw [Nat.add_zero]]
            have hcomp : ((List.range steps).map fun j => ratio m W (b + (j + 1))) =
                (List.range steps).map ((fun j => ratio m W (b + j)) ∘ fun j => j + 1) := by
              congr 1
            rw [hcomp]
            rw [mul_assoc]
            congr 1
          · rw [if_neg hall, if_neg hall]

lemma except_bind_ok {α β : Type} (a : α) (f : α → Except Err β) :
    (Except.ok a >>= f) = f a := rfl

lemma replaceFirst_not_mem (xs ys : List Char) (old new : Char) (h : old ∉ xs) :
    replaceFirst (xs ++ old :: ys) old new = xs ++ new :: ys := by
  induction xs with
  | nil => simp [replaceFirst]
  | cons x xr ih =>
      have hx : x ≠ old := fun hc => h (by simp [hc])
      show replaceFirst (x :: (xr ++ old :: ys)) old new = x :: (xr ++ new :: ys)
      rw [replaceFirst, if_neg hx, ih (fun hc => h (List.mem_cons_of_mem _ hc))]

lemma computeProbs_eq (m : MarkovModel) (kb ka : List Char)
    (hwfa : ∀ g inner, alookup m.st g = some inner → g.length = m.k ∧ innerSum inner ≠ 0)
    (hkb : kb.length = m.k) (hka : ka.length = m.k) (hnm : '~' ∉ kb) :
    ∀ cands, computeProbs m (kb ++ '~' :: ka) cands =
      .ok (cands.map fun c => jointLikelihood m (kb ++ c :: ka)) := by
  intro cands
  induction cands with
  | nil => rfl
  | cons c cs ih =>
      rw [computeProbs, replaceFirst_not_mem kb ka '~' c hnm]
      have hW : (kb ++ c :: ka).length = 2 * m.k + 1 := by
        simp [hkb, hka]
        omega
      rw [candidateProb_spec m (kb ++ c :: ka) hwfa hW (m.k + 1) 0 1 (by omega),
        except_bind_ok, ih, except_bind_ok]
      congr 1
      rw [List.map_cons]
      congr 1
      rw [jointLikelihood]
      simp only [Nat.zero_add, one_mul]

lemma foldl_max_mem (xs : List ℚ) (a : ℚ) : xs.foldl max a = a ∨ xs.foldl max a ∈ xs := by
  induction xs generalizing a with
  | nil => exact Or.inl rfl
  | cons x xr ih =>
      rcases ih (max a x) with h | h
      · rcases max_choice a x with hm | hm
        · exact Or.inl (by rw [List.foldl_cons, h, hm])
        · exact Or.inr (by rw [List.foldl_cons, h, hm]; exact List.mem_cons_self _ _)
      · exact Or.inr (List.mem_cons_of_mem _ (by rw [List.foldl_cons]; exact h))

lemma le_foldl_max (xs : List ℚ) (a : ℚ) :
    a ≤ xs.foldl max a ∧ ∀ x ∈ xs, x ≤ xs.foldl max a := by
  induction xs generalizing a with
  | nil => exact ⟨le_refl a, by simp⟩
  | cons x xr ih =>
      obtain ⟨h1, h2⟩ := ih (max a x)
      rw [List.foldl_cons]
      refine ⟨le_trans (le_max_left a x) h1, ?_⟩
      intro y hy
      rcases List.mem_cons.mp hy with he | hm
      · subst he
        exact le_trans (le_max_right a y) h1
      · exact h2 y hm

lemma listMax_mem (l : List ℚ) (h : l ≠ []) : listMax l ∈ l := by
  cases l with
  | nil => exact absurd rfl h
  | cons x xr =>
      rw [listMax]
      rcases foldl_max_mem xr x with h1 | h1
      · rw [h1]
        exact List.mem_cons_self _ _
      · exact List.mem_cons_of_mem _ h1

lemma le_listMax (l : List ℚ) (x : ℚ) (h : x ∈ l) : x ≤ listMax l := by
  cases l with
  | nil => simp at h
  | cons y yr =>
      rw [listMax]
      rcases List.mem_cons.mp h with he | hm
      · subst he
        exact (le_foldl_max yr x).1
      · exact (le_foldl_max yr y).2 x hm

lemma idxOfQ_spec (l : List ℚ) (y : ℚ) (h : y ∈ l) :
    idxOfQ l y < l.length ∧ l.getD (idxOfQ l y) 0 = y ∧
      ∀ j, j < idxOfQ l y → l.getD j 0 ≠ y := by
  induction l with
  | nil => simp at h
  | cons x xr ih =>
      by_cases hx : x = y
      · rw [idxOfQ, if_pos hx]
        exact ⟨by simp, by simpa using hx, fun j hj => by omega⟩
      · rw [idxOfQ, if_neg hx]
        have hy : y ∈ xr := by
          rcases List.mem_cons.mp h with he | hm
          · exact absurd he.symm hx
          · exact hm
        obtain ⟨h1, h2, h3⟩ := ih hy
        refine ⟨by simp; omega, ?_, ?_⟩
        · rw [List.getD_cons_succ]
          exact h2
        · intro j hj
          cases j with
          | zero =>
              rw [List.getD_cons_zero]
              exact hx
          | succ j0 =>
              rw [List.getD_cons_succ]
              exact h3 j0 (by omega)

lemma getD_map_q (f : Char → ℚ) (l : List Char) (j : Nat) (h : j < l.length) :
    (l.map f).getD j 0 = f (l.getD j ' ') := by
  rw [List.getD_eq_getElem?_getD, List.getElem?_map, List.getElem?_eq_getElem h,
    List.getD_eq_getElem?_getD, List.getElem?_eq_getElem h]
  rfl

lemma getD_mem_q (l : List ℚ) (j : Nat) (h : j < l.length) : l.getD j 0 ∈ l := by
  rw [List.getD_eq_getElem?_getD, List.getElem?_eq_getElem h]
  exact List.getElem_mem h

lemma listMax_all_zero (l : List ℚ) (hne : l ≠ []) (h : ∀ p ∈ l, p = 0) :
    listMax l = 0 :=
  h _ (listMax_mem l hne)

lemma argmax_all_zero (l : List ℚ) (h : ∀ p ∈ l, p = 0) : argmax l = 0 := by
  cases l with
  | nil => rfl
  | cons x xr =>
      rw [argmax, listMax_all_zero _ (by simp) h, idxOfQ, if_pos (h x (by simp))]

lemma not_mem_window (s : List Char) (a b : Nat) (c : Char)
    (hlen : a + b ≤ s.length)
    (h : ∀ j, a ≤ j → j < a + b → s.getD j ' ' ≠ c) :
    c ∉ (s.drop a).take b := by
  intro hmem
  rw [List.mem_iff_getElem] at hmem
  obtain ⟨idx, hidx, heq⟩ := hmem
  have hidx' : idx < b := by
    have h2 := hidx
    simp at h2
    omega
  have hsome : ((s.drop a).take b)[idx]? = some c := by
    rw [List.getElem?_eq_getElem hidx, heq]
  rw [List.getElem?_take, if_pos hidx', List.getElem?_drop] at hsome
  apply h (a + idx) (by omega) (by omega)
  rw [List.getD_eq_getElem?_getD, hsome]
  rfl

lemma replaceFirst_at (s : List Char) (i : Nat) (c : Char)
    (hmark : s.get? i = some '~') (hbefore : ∀ j, j < i → s.getD j ' ' ≠ '~') :
    replaceFirst s '~' c = s.take i ++ c :: s.drop (i + 1) := by
  have hi : i < s.length := by
    by_contra hc
    rw [List.get?_eq_getElem?, List.getElem?_eq_none (by omega)] at hmark
    exact Option.noConfusion hmark
  have hsi : s[i] = '~' := by
    rw [List.get?_eq_getElem?, List.getElem?_eq_getElem hi] at hmark
    exact Option.some.inj hmark
  have hnm : '~' ∉ s.take i := by
    have h2 := not_mem_window s 0 i '~' (by omega) (fun j h1 h2 => hbefore j (by omega))
    rw [List.drop_zero] at h2
    exact h2
  have hsplit : s = s.take i ++ '~' :: s.drop (i + 1) := by
    conv_lhs => rw [← List.take_append_drop i s]
    congr 1
    rw [List.drop_eq_getElem_cons hi, hsi]
  conv_lhs => rw [hsplit]
  exact replaceFirst_not_mem _ _ _ _ hnm

lemma charFreqStr_ok_any (m : MarkovModel) (g : List Char) (cs : List Char)
    (hlen : g.length = m.k) : ∃ v, charFreqStr m g cs = .ok v := by
  unfold charFreqStr
  rw [if_neg (by omega)]
  cases halo : alookup m.st g with
  | none => exact ⟨0, rfl⟩
  | some inner =>
      cases cs with
      | nil => exact ⟨0, rfl⟩
      | cons ch ct =>
          cases ct with
          | nil => exact ⟨(alookup inner ch).getD 0, rfl⟩
          | cons d dt => exact ⟨0, rfl⟩

lemma candidateProb_ok (m : MarkovModel)
    (hwfa : ∀ g inner, alookup m.st g = some inner → g.length = m.k ∧ innerSum inner ≠ 0)
    (ntxt : List Char) :
    ∀ steps b p, ∃ q, candidateProb m ntxt b steps p = .ok q := by
  intro steps
  induction steps with
  | zero => exact fun b p => ⟨p, rfl⟩
  | succ steps ih =>
      intro b p
      rw [candidateProb]
      cases halo : alookup m.st (pySlice ntxt (b : Int) ((b : Int) - m.k - 1)) with
      | none => exact ⟨0, rfl⟩
      | some inner =>
          obtain ⟨hlen, hsum⟩ := hwfa _ _ halo
          obtain ⟨v, hv⟩ := charFreqStr_ok_any m _
            (pySlice ntxt ((m.k : Int) + b) ((m.k : Int) + b + 1)) hlen
          rw [hv, except_bind_ok, kgram_freq_ok m _ hlen, except_bind_ok]
          have hne : ¬kfreqVal m (pySlice ntxt (b : Int) ((b : Int) - m.k - 1)) = 0 := by
            unfold kfreqVal
            rw [halo]
            exact hsum
          rw [if_neg hne]
          exact ih (b + 1) _

lemma computeProbs_ok (m : MarkovModel)
    (hwfa : ∀ g inner, alookup m.st g = some inner → g.length = m.k ∧ innerSum inner ≠ 0)
    (context : List Char) :
    ∀ cands, ∃ probs, computeProbs m context cands = .ok probs ∧
      probs.length = cands.length := by
  intro cands
  induction cands with
  | nil => exact ⟨[], rfl, rfl⟩
  | cons c cs ih =>
      obtain ⟨probs, hp, hl⟩ := ih
      obtain ⟨q, hq⟩ := candidateProb_ok m hwfa (replaceFirst context '~' c) (m.k + 1) 0 1
      refine ⟨q :: probs, ?_, by simp [hl]⟩
      rw [computeProbs, hq, except_bind_ok, hp, except_bind_ok]

lemma argmax_map_spec (f : Char → ℚ) (l : List Char) (hl : l ≠ []) :
    argmax (l.map f) < l.length ∧
    (∀ j, j < l.length → f (l.getD j ' ') ≤ f (l.getD (argmax (l.map f)) ' ')) ∧
    (∀ j, j < argmax (l.map f) → f (l.getD j ' ') < f (l.getD (argmax (l.map f)) ' ')) := by
  have hpne : l.map f ≠ [] := by
    cases l with
    | nil => exact absurd rfl hl
    | cons x xr => simp
  obtain ⟨h1, h2, h3⟩ := idxOfQ_spec (l.map f) (listMax (l.map f)) (listMax_mem _ hpne)
  have hlt : argmax (l.map f) < l.length := by
    have h4 : argmax (l.map f) < (l.map f).length := h1
    rw [List.length_map] at h4
    exact h4
  have hga : (l.map f).getD (argmax (l.map f)) 0 = f (l.getD (argmax (l.map f)) ' ') :=
    getD_map_q f l _ hlt
  have hmax : f (l.getD (argmax (l.map f)) ' ') = listMax (l.map f) := by
    rw [← hga]
    exact h2
  refine ⟨hlt, ?_, ?_⟩
  · intro j hj
    rw [← getD_map_q f l j hj, hmax]
    exact le_listMax _ _ (getD_mem_q _ j (by rw [List.length_map]; exact hj))
  · intro j hj
    have hjl : j < l.length := by omega
    rw [← getD_map_q f l j hjl, hmax]
    refine lt_of_le_of_ne
      (le_listMax _ _ (getD_mem_q _ j (by rw [List.length_map]; exact hjl))) ?_
    exact h3 j hj

lemma match_prob_reduce (s' : List Char) (keyh : List Char) (pr : List ℚ)
    (hne : pr ≠ []) :
    (match pr with
      | [] => Except.error Err.valueError
      | _ :: _ => Except.ok (replaceFirst s' '~' (keyh.getD (argmax pr) ' '))) =
      Except.ok (replaceFirst s' '~' (keyh.getD (argmax pr) ' ')) := by
  cases pr with
  | nil => exact absurd rfl hne
  | cons q qr => rfl

/-! ### Claims C1, C5, C6, C7 -/

/-- C1: the specification requires `rand(g)` to sample each observed
successor `c` with probability `char_freq(g, c) / kgram_freq(g)`.  The code
computes that weighted distribution and then discards it, returning
`random.choice` over the distinct successors — a uniform pick.  On the
model of text "aaab" with k = 1, the successor probabilities of "a" under
the code are 1/2 and 1/2, while the specified distribution is 2/3 for 'a'
and 1/3 for 'b': the code violates the claim. -/
theorem claim_C1_rand_uniform_defect :
    randUniformProb (MarkovModel.init "aaab".toList 1) ['a'] 'a' = 1 / 2 ∧
    specSamplingProb (MarkovModel.init "aaab".toList 1) ['a'] 'a' = 2 / 3 ∧
    randUniformProb (MarkovModel.init "aaab".toList 1) ['a'] 'a' ≠
      specSamplingProb (MarkovModel.init "aaab".toList 1) ['a'] 'a' := by
  with_unfolding_all decide

/-- C5: `kgram_freq(g)` fails with the invalid-length error when
`len(g) ≠ k` (it does not return 0); with `len(g) = k` it returns the sum
of the counts of `table[g]`, or 0 when `g` is absent; `char_freq(g, c)`
has the same length precondition and failure and returns `table[g][c]`,
or 0 when `g` or `c` is unseen. -/
theorem claim_C5_accessor_contracts (m : MarkovModel) (g : List Char) (c : Char) :
    (g.length ≠ m.k →
      kgram_freq m g = .error .invalidKgramLength ∧
      char_freq m g c = .error .invalidKgramLength) ∧
    (g.length = m.k →
      kgram_freq m g = .ok (kfreqVal m g) ∧ char_freq m g c = .ok (charVal m g c)) ∧
    (alookup m.st g = none → kfreqVal m g = 0 ∧ charVal m g c = 0) ∧
    (∀ inner, alookup m.st g = some inner →
      kfreqVal m g = innerSum inner ∧ charVal m g c = (alookup inner c).getD 0) := by
  refine ⟨fun h => ?_, fun h => ?_, fun h => ?_, fun inner h => ?_⟩
  · constructor
    · unfold kgram_freq
      rw [if_pos (by omega)]
    · unfold char_freq charFreqStr
      rw [if_pos (by omega)]
  · constructor
    · unfold kgram_freq kfreqVal
      rw [if_neg (by omega)]
      cases halo : alookup m.st g <;> simp [halo]
    · unfold char_freq charFreqStr charVal
      rw [if_neg (by omega)]
      cases halo : alookup m.st g <;> simp [halo]
  · unfold kfreqVal charVal
    rw [h]
    exact ⟨rfl, rfl⟩
  · unfold kfreqVal charVal
    rw [h]
    exact ⟨rfl, rfl⟩

theorem claim_C5_accessor_contracts_witness :
    kgram_freq (MarkovModel.init "aabaab".toList 2) ['a', 'b', 'a'] =
      .error .invalidKgramLength ∧
    char_freq (MarkovModel.init "aabaab".toList 2) ['a', 'b', 'a'] 'a' =
      .error .invalidKgramLength ∧
    kgram_freq (MarkovModel.init "aabaab".toList 2) ['a', 'b'] =
      .ok (kfreqVal (MarkovModel.init "aabaab".toList 2) ['a', 'b']) ∧
    kfreqVal (MarkovModel.init "aabaab".toList 2) ['c', 'c'] = 0 := by
  refine ⟨?_, ?_, ?_, ?_⟩
  · exact ((claim_C5_accessor_contracts (MarkovModel.init "aabaab".toList 2) ['a', 'b', 'a']
      'a').1 (by decide)).1
  · exact ((claim_C5_accessor_contracts (MarkovModel.init "aabaab".toList 2) ['a', 'b', 'a']
      'a').1 (by decide)).2
  · exact ((claim_C5_accessor_contracts (MarkovModel.init "aabaab".toList 2) ['a', 'b']
      'a').2.1 (by decide)).1
  · exact ((claim_C5_accessor_contracts (MarkovModel.init "aabaab".toList 2) ['c', 'c']
      'a').2.2.1 (by decide)).1

/-- C6 (counterexample): the claim says construction fails with an
invalid-argument error whenever `len(text) < k`; but on text "a" with
k = 2 the constructor succeeds, returning a model with an empty table. -/
theorem claim_C6_counterexample :
    construct ['a'] 2 = .ok ⟨2, []⟩ ∧ ∀ e : Err, construct ['a'] 2 ≠ .error e := by
  refine ⟨by decide, fun e h => ?_⟩
  rw [show construct ['a'] 2 = .ok ⟨2, []⟩ from by decide] at h
  exact Except.noConfusion h

/-- C6 (amended): construction performs no length validation at all — for
every text and every k, including `len(text) < k`, it succeeds and returns
the model built from the extended text `text + text[:k]`. -/
theorem claim_C6_no_validation (text : List Char) (k : Nat) :
    construct text k = .ok (MarkovModel.init text k) :=
  construct_eq_init text k

/-- C3: for text of length n and positive order k with n ≥ k, the counts
of the constructed table sum to n: every entry's `kgram_freq` equals its
inner-count sum, and the sum of those sums over all k-grams present in the
table is exactly `len(text)` (the circular extension counts each original
character exactly once as a next-symbol). -/
theorem claim_C3_circular_count (text : List Char) (k : Nat)
    (hk1 : 1 ≤ k) (hk : k ≤ text.length) :
    (∀ p ∈ (MarkovModel.init text k).st,
      kgram_freq (MarkovModel.init text k) p.1 = .ok (innerSum p.2)) ∧
    tableTotal (MarkovModel.init text k).st = text.length := by
  constructor
  · intro p hp
    have hwf := init_wf text k hk p hp
    have hnod : (((MarkovModel.init text k).st).map Prod.fst).Nodup := by
      unfold MarkovModel.init
      exact nodup_keys_buildTable _ _ _
    have hlook := alookup_of_mem_nodup _ hnod p hp
    unfold kgram_freq
    rw [if_neg (by simp [MarkovModel.init]; omega), hlook]
  · rw [init_st text k hk, tableTotal_buildTable]

theorem claim_C3_circular_count_witness :
    (∀ p ∈ (MarkovModel.init "aabaab".toList 2).st,
      kgram_freq (MarkovModel.init "aabaab".toList 2) p.1 = .ok (innerSum p.2)) ∧
    tableTotal (MarkovModel.init "aabaab".toList 2).st = "aabaab".toList.length :=
  claim_C3_circular_count "aabaab".toList 2 (by decide) (by decide)

/-- C8: the table built from `(text, k)` with `len(text) ≥ k` is
well-formed: every outer key has length exactly k and every stored inner
count is positive (zero counts are represented by key absence). -/
theorem claim_C8_table_well_formed (text : List Char) (k : Nat) (hk : k ≤ text.length) :
    ∀ p ∈ (MarkovModel.init text k).st, p.1.length = k ∧ ∀ q ∈ p.2, 0 < q.2 := by
  intro p hp
  have h := init_wf text k hk p hp
  exact ⟨h.1, h.2.2⟩

theorem claim_C8_table_well_formed_witness :
    2 ≤ "aabaab".toList.length ∧
    ((['a', 'a'], [(('b' : Char), (2 : Nat))]) ∈ (MarkovModel.init "aabaab".toList 2).st ∧
      (['a', 'a'], [(('b' : Char), (2 : Nat))]).1.length = 2 ∧
      0 < (('b' : Char), (2 : Nat)).2) := by
  refine ⟨by decide, by decide, ?_, ?_⟩
  · exact (claim_C8_table_well_formed "aabaab".toList 2 (by decide)
      (['a', 'a'], [('b', 2)]) (by decide)).1
  · exact (claim_C8_table_well_formed "aabaab".toList 2 (by decide)
      (['a', 'a'], [('b', 2)]) (by decide)).2 ('b', 2) (by decide)

/-- C9: the constructed table is closed under transition — for every
k-gram g in the table and every successor c recorded under g, the shifted
k-gram `g[1:] + c` is also a key — and consequently generation from any
observed seed never meets an unknown k-gram: `gen` always returns a
result. -/
theorem claim_C9_closure_and_gen_safety (text : List Char) (k : Nat)
    (hk1 : 1 ≤ k) (hk : k ≤ text.length) :
    (∀ g inner c, alookup (MarkovModel.init text k).st g = some inner →
        c ∈ inner.map Prod.fst →
        (alookup (MarkovModel.init text k).st (g.drop 1 ++ [c])).isSome) ∧
    (∀ g inner, alookup (MarkovModel.init text k).st g = some inner →
        ∀ T rs, ∃ s, gen (MarkovModel.init text k) g T rs = .ok s) := by
  refine ⟨init_closure text k hk1 hk, fun g inner halo T rs => ?_⟩
  have hwf := init_wf text k hk
  have hglen : g.length = k := (hwf _ (alookup_mem _ _ _ halo)).1
  have hg0 : (g.drop 0).take (MarkovModel.init text k).k = g := by
    rw [List.drop_zero, show (MarkovModel.init text k).k = k from rfl, ← hglen,
      List.take_length]
  have hsome :
      (alookup (MarkovModel.init text k).st
        ((g.drop 0).take (MarkovModel.init text k).k)).isSome := by
    rw [hg0, halo]
    rfl
  obtain ⟨s, hgen, -, -, -⟩ :=
    genAux_spec (MarkovModel.init text k) rs hk1 hwf (init_closure text k hk1 hk)
      (T - k) 0 g (by rw [show (MarkovModel.init text k).k = k from rfl]; omega) hsome
  exact ⟨s, hgen⟩

theorem claim_C9_closure_and_gen_safety_witness :
    (∀ g inner c, alookup (MarkovModel.init "aabaab".toList 2).st g = some inner →
        c ∈ inner.map Prod.fst →
        (alookup (MarkovModel.init "aabaab".toList 2).st (g.drop 1 ++ [c])).isSome) ∧
    (∀ g inner, alookup (MarkovModel.init "aabaab".toList 2).st g = some inner →
        ∀ T rs, ∃ s, gen (MarkovModel.init "aabaab".toList 2) g T rs = .ok s) :=
  claim_C9_closure_and_gen_safety "aabaab".toList 2 (by decide) (by decide)

/-- C4: for a seed k-gram present in the table and any T ≥ k, `gen`
returns a string of length exactly T whose first k characters are the
seed, and every subsequent character is the result of `rand` applied to
the trailing k characters of the string built so far. -/
theorem claim_C4_gen_length_and_prefix (text g : List Char) (k T : Nat) (rs : Nat → Nat)
    (hk1 : 1 ≤ k) (hk : k ≤ text.length)
    (hg : (alookup (MarkovModel.init text k).st g).isSome) (hT : k ≤ T) :
    ∃ s, gen (MarkovModel.init text k) g T rs = .ok s ∧ s.length = T ∧ s.take k = g ∧
      ∀ i, i + k < T →
        rand (MarkovModel.init text k) ((s.drop i).take k) (rs i) =
          .ok (s.getD (i + k) ' ') := by
  obtain ⟨inner, halo⟩ := Option.isSome_iff_exists.mp hg
  have hwf := init_wf text k hk
  have hglen : g.length = k := (hwf _ (alookup_mem _ _ _ halo)).1
  have hg0 : (g.drop 0).take (MarkovModel.init text k).k = g := by
    rw [List.drop_zero, show (MarkovModel.init text k).k = k from rfl, ← hglen,
      List.take_length]
  have hsome :
      (alookup (MarkovModel.init text k).st
        ((g.drop 0).take (MarkovModel.init text k).k)).isSome := by
    rw [hg0, halo]
    rfl
  obtain ⟨s, hgen, hslen, hstake, hrand⟩ :=
    genAux_spec (MarkovModel.init text k) rs hk1 hwf (init_closure text k hk1 hk)
      (T - k) 0 g (by rw [show (MarkovModel.init text k).k = k from rfl]; omega) hsome
  refine ⟨s, hgen, by omega, ?_, ?_⟩
  · rw [← hglen]
    exact hstake
  · intro i hi
    exact hrand i (by omega) (by omega)

theorem claim_C4_gen_length_and_prefix_witness :
    ∃ s, gen (MarkovModel.init "aabaab".toList 2) ['a', 'a'] 6 (fun _ => 0) = .ok s ∧
      s.length = 6 ∧ s.take 2 = ['a', 'a'] ∧
      ∀ i, i + 2 < 6 →
        rand (MarkovModel.init "aabaab".toList 2) ((s.drop i).take 2) ((fun _ => 0) i) =
          .ok (s.getD (i + 2) ' ') :=
  claim_C4_gen_length_and_prefix "aabaab".toList ['a', 'a'] 2 6 (fun _ => 0)
    (by decide) (by decide) (by decide) (by decide)

/-- C2: at a marker position whose k-context `kgram_b` is in the table and
whose two context windows lie in the string and are marker-free, the repair
step replaces the marker with the candidate `c` of `table[kgram_b]` whose
joint likelihood over the window `W = kgram_b + c + kgram_a` is maximal,
ties broken by the earliest candidate in enumeration order; in particular
on the model of "aabaab" with k = 2, `replace_unknown("aa~aab")` returns
"aabaab". -/
theorem claim_C2_repair_maximum_likelihood (m : MarkovModel) (s : List Char) (i : Nat)
    (inner : InnerMap)
    (hwf : WellFormed m.k m.st)
    (hki : m.k ≤ i) (hia : i + m.k + 1 ≤ s.length)
    (hmark : s.get? i = some '~')
    (hbefore : ∀ j, j < i → s.getD j ' ' ≠ '~')
    (hna : '~' ∉ (s.drop (i + 1)).take m.k)
    (hb : alookup m.st ((s.drop (i - m.k)).take m.k) = some inner) :
    (∃ a, a < (inner.map Prod.fst).length ∧
      replStep m s i =
        .ok (s.take i ++ ((inner.map Prod.fst).getD a ' ') :: s.drop (i + 1)) ∧
      (∀ j, j < (inner.map Prod.fst).length →
        jointLikelihood m ((s.drop (i - m.k)).take m.k ++
            ((inner.map Prod.fst).getD j ' ') :: (s.drop (i + 1)).take m.k) ≤
          jointLikelihood m ((s.drop (i - m.k)).take m.k ++
            ((inner.map Prod.fst).getD a ' ') :: (s.drop (i + 1)).take m.k)) ∧
      ∀ j, j < a →
        jointLikelihood m ((s.drop (i - m.k)).take m.k ++
            ((inner.map Prod.fst).getD j ' ') :: (s.drop (i + 1)).take m.k) <
          jointLikelihood m ((s.drop (i - m.k)).take m.k ++
            ((inner.map Prod.fst).getD a ' ') :: (s.drop (i + 1)).take m.k)) ∧
    replace_unknown (MarkovModel.init "aabaab".toList 2) "aa~aab".toList =
      .ok "aabaab".toList := by
  refine ⟨?_, by with_unfolding_all decide⟩
  have hkb_eq : pySlice s ((i : Int) - m.k) (i : Int) = (s.drop (i - m.k)).take m.k :=
    pySlice_kb s i m.k hki (by omega)
  have hka_eq : pySlice s ((i : Int) + 1) ((i : Int) + m.k + 1) =
      (s.drop (i + 1)).take m.k := pySlice_ka s i m.k hia
  have hkb_len : ((s.drop (i - m.k)).take m.k).length = m.k := by
    simp
    omega
  have hka_len : ((s.drop (i + 1)).take m.k).length = m.k := by
    simp
    omega
  have hnb : '~' ∉ (s.drop (i - m.k)).take m.k :=
    not_mem_window s (i - m.k) m.k '~' (by omega) (fun j h1 h2 => hbefore j (by omega))
  have hwfa := wf_to_lookup_facts m hwf
  have hcomp := computeProbs_eq m ((s.drop (i - m.k)).take m.k)
    ((s.drop (i + 1)).take m.k) hwfa hkb_len hka_len hnb (inner.map Prod.fst)
  have hinner := hwf _ (alookup_mem _ _ _ hb)
  have hkne : inner.map Prod.fst ≠ [] := fun hc => hinner.2.1 (List.map_eq_nil_iff.mp hc)
  obtain ⟨c0, ks, hkeysplit⟩ : ∃ c0 ks, inner.map Prod.fst = c0 :: ks := by
    cases hh : inner.map Prod.fst with
    | nil => exact absurd hh hkne
    | cons a b => exact ⟨a, b, rfl⟩
  rw [hkeysplit] at hcomp
  have hstep : replStep m s i = .ok (replaceFirst s '~'
      ((inner.map Prod.fst).getD
        (argmax ((inner.map Prod.fst).map fun c =>
          jointLikelihood m ((s.drop (i - m.k)).take m.k ++
            c :: (s.drop (i + 1)).take m.k))) ' ')) := by
    unfold replStep
    rw [hmark, hkb_eq, hka_eq, hb]
    simp only [hkeysplit, hcomp, List.map_cons, except_bind_ok, if_true]
  obtain ⟨halt, hle, hlt⟩ := argmax_map_spec (fun c =>
      jointLikelihood m ((s.drop (i - m.k)).take m.k ++
        c :: (s.drop (i + 1)).take m.k)) (inner.map Prod.fst) hkne
  exact ⟨argmax ((inner.map Prod.fst).map fun c =>
      jointLikelihood m ((s.drop (i - m.k)).take m.k ++
        c :: (s.drop (i + 1)).take m.k)), halt,
    by rw [hstep, replaceFirst_at s i _ hmark hbefore], hle, hlt⟩

theorem claim_C2_repair_maximum_likelihood_witness :
    (∃ a, a < (([(('b' : Char), (2 : Nat))].map Prod.fst)).length ∧
      replStep (MarkovModel.init "aabaab".toList 2) "aa~aab".toList 2 =
        .ok ("aa~aab".toList.take 2 ++
          (([(('b' : Char), (2 : Nat))].map Prod.fst).getD a ' ') ::
            "aa~aab".toList.drop 3) ∧
      (∀ j, j < ([(('b' : Char), (2 : Nat))].map Prod.fst).length →
        jointLikelihood (MarkovModel.init "aabaab".toList 2)
            (("aa~aab".toList.drop 0).take 2 ++
              (([(('b' : Char), (2 : Nat))].map Prod.fst).getD j ' ') ::
                ("aa~aab".toList.drop 3).take 2) ≤
          jointLikelihood (MarkovModel.init "aabaab".toList 2)
            (("aa~aab".toList.drop 0).take 2 ++
              (([(('b' : Char), (2 : Nat))].map Prod.fst).getD a ' ') ::
                ("aa~aab".toList.drop 3).take 2)) ∧
      ∀ j, j < a →
        jointLikelihood (MarkovModel.init "aabaab".toList 2)
            (("aa~aab".toList.drop 0).take 2 ++
              (([(('b' : Char), (2 : Nat))].map Prod.fst).getD j ' ') ::
                ("aa~aab".toList.drop 3).take 2) <
          jointLikelihood (MarkovModel.init "aabaab".toList 2)
            (("aa~aab".toList.drop 0).take 2 ++
              (([(('b' : Char), (2 : Nat))].map Prod.fst).getD a ' ') ::
                ("aa~aab".toList.drop 3).take 2)) ∧
    replace_unknown (MarkovModel.init "aabaab".toList 2) "aa~aab".toList =
      .ok "aabaab".toList :=
  claim_C2_repair_maximum_likelihood (MarkovModel.init "aabaab".toList 2)
    "aa~aab".toList 2 [('b', 2)] (by decide) (by decide) (by decide) (by decide)
    (by decide) (by decide) (by decide)

/-- C10: at a marker position whose context `kgram_b` is in the
(well-formed) table, the candidate set is non-empty and the repair step
cannot fail: it always returns the working string with the first `~`
replaced by the argmax candidate, and when every candidate's score is 0
the argmax falls back to the first candidate in enumeration order. -/
theorem claim_C10_repair_zero_score_fallback (m : MarkovModel) (s : List Char) (i : Nat)
    (inner : InnerMap)
    (hwf : WellFormed m.k m.st)
    (hmark : s.get? i = some '~')
    (hb : alookup m.st (pySlice s ((i : Int) - m.k) (i : Int)) = some inner) :
    inner.map Prod.fst ≠ [] ∧
    ∃ probs,
      computeProbs m
        (pySlice s ((i : Int) - m.k) (i : Int) ++
          '~' :: pySlice s ((i : Int) + 1) ((i : Int) + m.k + 1))
        (inner.map Prod.fst) = .ok probs ∧
      replStep m s i =
        .ok (replaceFirst s '~' ((inner.map Prod.fst).getD (argmax probs) ' ')) ∧
      ((∀ p ∈ probs, p = 0) →
        replStep m s i =
          .ok (replaceFirst s '~' ((inner.map Prod.fst).getD 0 ' '))) := by
  have hwfa := wf_to_lookup_facts m hwf
  have hinner := hwf _ (alookup_mem _ _ _ hb)
  have hkne : inner.map Prod.fst ≠ [] := fun hc => hinner.2.1 (List.map_eq_nil_iff.mp hc)
  obtain ⟨probs, hp, hl⟩ := computeProbs_ok m hwfa
    (pySlice s ((i : Int) - m.k) (i : Int) ++
      '~' :: pySlice s ((i : Int) + 1) ((i : Int) + m.k + 1)) (inner.map Prod.fst)
  cases probs with
  | nil =>
      rw [List.length_nil] at hl
      exact absurd (List.length_eq_zero.mp hl.symm) hkne
  | cons q qr =>
      have hstep : replStep m s i =
          .ok (replaceFirst s '~'
            ((inner.map Prod.fst).getD (argmax (q :: qr)) ' ')) := by
        unfold replStep
        rw [hmark, hb]
        simp only [hp, except_bind_ok, if_true]
      refine ⟨hkne, q :: qr, hp, hstep, fun hzero => ?_⟩
      rw [hstep, argmax_all_zero (q :: qr) hzero]

theorem claim_C10_repair_zero_score_fallback_witness :
    ([(('b' : Char), (2 : Nat))].map Prod.fst ≠ [] ∧
    ∃ probs,
      computeProbs (MarkovModel.init "aabaab".toList 2)
        (pySlice "aa~ppp".toList ((2 : Int) - 2) (2 : Int) ++
          '~' :: pySlice "aa~ppp".toList ((2 : Int) + 1) ((2 : Int) + 2 + 1))
        ([(('b' : Char), (2 : Nat))].map Prod.fst) = .ok probs ∧
      replStep (MarkovModel.init "aabaab".toList 2) "aa~ppp".toList 2 =
        .ok (replaceFirst "aa~ppp".toList '~'
          (([(('b' : Char), (2 : Nat))].map Prod.fst).getD (argmax probs) ' ')) ∧
      ((∀ p ∈ probs, p = 0) →
        replStep (MarkovModel.init "aabaab".toList 2) "aa~ppp".toList 2 =
          .ok (replaceFirst "aa~ppp".toList '~'
            (([(('b' : Char), (2 : Nat))].map Prod.fst).getD 0 ' ')))) :=
  claim_C10_repair_zero_score_fallback (MarkovModel.init "aabaab".toList 2)
    "aa~ppp".toList 2 [('b', 2)] (by decide) (by decide) (by decide)

/-- C7: the model of text "aabaab" with k = 2 has table exactly
`{"aa":{"b":2}, "ab":{"a":2}, "ba":{"a":2}}` (in first-observed order),
`kgram_freq("aa") = 2`, `char_freq("aa","b") = 2`, `char_freq("aa","a") = 0`,
and — every observed k-gram having exactly one successor — generation is
deterministic: `gen("aa", 6) = "aabaab"` for every injected random source. -/
theorem claim_C7_worked_example :
    (MarkovModel.init "aabaab".toList 2).st =
      [(['a', 'a'], [('b', 2)]), (['a', 'b'], [('a', 2)]), (['b', 'a'], [('a', 2)])] ∧
    kgram_freq (MarkovModel.init "aabaab".toList 2) ['a', 'a'] = .ok 2 ∧
    char_freq (MarkovModel.init "aabaab".toList 2) ['a', 'a'] 'b' = .ok 2 ∧
    char_freq (MarkovModel.init "aabaab".toList 2) ['a', 'a'] 'a' = .ok 0 ∧
    ∀ rs : Nat → Nat,
      gen (MarkovModel.init "aabaab".toList 2) ['a', 'a'] 6 rs = .ok "aabaab".toList := by
  refine ⟨by decide, by decide, by decide, by decide, fun rs => ?_⟩
  have haa : ∀ j, rand (MarkovModel.init "aabaab".toList 2) ['a', 'a'] j = .ok 'b' :=
    rand_singleton _ _ [('b', 2)] 'b' (by decide) (by decide) (by decide) (by decide)
  have hab : ∀ j, rand (MarkovModel.init "aabaab".toList 2) ['a', 'b'] j = .ok 'a' :=
    rand_singleton _ _ [('a', 2)] 'a' (by decide) (by decide) (by decide) (by decide)
  have hba : ∀ j, rand (MarkovModel.init "aabaab".toList 2) ['b', 'a'] j = .ok 'a' :=
    rand_singleton _ _ [('a', 2)] 'a' (by decide) (by decide) (by decide) (by decide)
  show genAux (MarkovModel.init "aabaab".toList 2) rs 0 4 ['a', 'a'] = .ok "aabaab".toList
  rw [genAux_step _ _ _ _ _ _ (haa (rs 0)), genAux_step _ _ _ _ _ _ (hab (rs 1)),
    genAux_step _ _ _ _ _ _ (hba (rs 2)), genAux_step _ _ _ _ _ _ (haa (rs 3))]
  rfl
